import Mathlib

/-!
Verification of the hybrid push-pull dependency solver (`src/lib.rs` of the
gpp-solver crate).

The embedding below is a direct sequential model of the solver. The Rust
state struct `State` holds a set `to_solve`, a map `pending_on` from a
dependency id to the list of fragments waiting on it, a map `punted` from a
deferred fragment id to its outstanding-dependency count, and a set `solved`.
Sets are modelled as duplicate-free lists (insertion checks membership, as a
`HashSet`/`BTreeSet` would) and maps as association lists whose insert
operation replaces any previous binding, matching `HashMap`/`BTreeMap`
semantics up to iteration order, which the solver never relies on.

The solver is asynchronous in the source, but all bookkeeping happens under a
single mutex, so every observable state transition is one of the atomic
commits performed with the state lock held: the pop from `to_solve` together
with the dependency filtering and either the punt commit or (after the
evaluate call) the solve commit. The claims under verification all speak
about states observed when no step is mid-flight, so the sequential model in
which one `step` is a single transition is faithful. `Solver::run` is a loop
of `step` calls (with bounded fan-out), so every behaviour of `run` is a
sequence of `step` transitions and is covered by the reachability relations
below.

Calls into the user-supplied `Problem` are instrumented: a `Trace` carries
the solver state plus the list of fragment ids passed to
`Problem::direct_dependencies` and to `Problem::evaluate`, in order, so that
at-most-once claims become statements about these lists. The dependency
function of the problem instance is a parameter `deps : Nat -> List Nat`; the
outcome of `Problem::evaluate` is a per-call parameter `Option e` (`none`
models `Ok(())`, `some e` models `Err(e)` with the caller-defined error
value `e`).

A call of `.unwrap()` on a missing map entry panics in Rust; those code paths
are modelled by `Option.none` results (constructor `StepResult.panicked`).
The subtraction `*count -= 1` on a stored count of `0` would be an arithmetic
underflow (a panic in debug builds); it is likewise mapped to the panic
result. Neither path is reachable without first violating the bookkeeping
invariants, and the panic modelling only matters for the claims about
panics.
-/

namespace GppSolver

/-- Fragment ids are plain natural numbers; the Rust `FragmentId` is a
newtype over `usize` used only through equality, ordering and hashing. -/
abbrev FragmentId := Nat

/-- Model of `Set::insert`: add an element if it is not present. -/
def setInsert (id : Nat) (s : List Nat) : List Nat :=
  if id ∈ s then s else s ++ [id]

/-- Model of `Set::take`: remove an element (the returned value is tracked
separately by the caller). -/
def setErase (id : Nat) (s : List Nat) : List Nat :=
  s.filter (fun x => x ≠ id)

/-- Model of `Map::get`: first binding of the key, if any. -/
def mapLookup (k : Nat) : List (Nat × α) → Option α
  | [] => none
  | p :: rest => if p.1 = k then some p.2 else mapLookup k rest

/-- Model of `Map::remove` (value recovery is done via `mapLookup`). -/
def mapErase (k : Nat) (m : List (Nat × α)) : List (Nat × α) :=
  m.filter (fun p => p.1 ≠ k)

/-- Model of `Map::insert`: replace any existing binding of the key. -/
def mapInsert (k : Nat) (v : α) (m : List (Nat × α)) : List (Nat × α) :=
  mapErase k m ++ [(k, v)]

/-- The `State` struct of `src/lib.rs` (the POD aggregate behind the mutex). -/
structure State where
  to_solve : List Nat
  pending_on : List (Nat × List Nat)
  punted : List (Nat × Nat)
  solved : List Nat
deriving Repr, DecidableEq

/-- `Solver::new` starts from the all-empty state. -/
def State.initial : State := ⟨[], [], [], []⟩

/-- The `Status` enum of `src/lib.rs`. -/
inductive Status where
  | Done : Status
  | DoneWithCycles : Status
  | Pending : Status
deriving Repr, DecidableEq

/-- `Solver::status`: `Done` when both `to_solve` and `punted` are empty,
`DoneWithCycles` when only `to_solve` is empty, `Pending` otherwise. It is a
pure read of the state (in the model, a function of `State` alone). -/
def status (s : State) : Status :=
  if s.to_solve.isEmpty then
    if s.punted.isEmpty then Status.Done else Status.DoneWithCycles
  else
    Status.Pending

/-- Case analysis on the punted count of one dependent, inside the
unblocking loop of `Solver::mark_solved`: a count of `1` moves the dependent
from `punted` back to `to_solve` (`punted.remove`, `to_solve.insert`), any
larger count is decremented in place (`*punted.get_mut(..).unwrap() -= 1`).
A stored count of `0` would underflow in the decrement; it is modelled as
the panic result `none` (it is impossible anyway: stored counts are lengths
of non-empty lists, decremented only while above `1`). -/
def unblockCount (s : State) (dependent : Nat) (n : Nat) : Option State :=
  if n = 0 then none
  else if n = 1 then
    some { s with punted := mapErase dependent s.punted,
                  to_solve := setInsert dependent s.to_solve }
  else
    some { s with punted := mapInsert dependent (n - 1) s.punted }

/-- One iteration of the dependent-unblocking loop inside
`Solver::mark_solved`: look up the punted count of the dependent; a missing
entry is the `.unwrap()` panic, modelled as `none`. -/
def unblockOne (s : State) (dependent : Nat) : Option State :=
  match mapLookup dependent s.punted with
  | none => none
  | some n => unblockCount s dependent n

/-- The `for dependent in dependents` loop of `Solver::mark_solved`. -/
def unblockAll (dependents : List Nat) (s : State) : Option State :=
  match dependents with
  | [] => some s
  | d :: rest =>
    match unblockOne s d with
    | none => none
    | some s1 => unblockAll rest s1

/-- `Solver::mark_solved`: insert the id into `solved`; if the id has a
`pending_on` entry, remove it and run the unblocking loop over the recorded
dependents. `none` models a panic inside the loop. -/
def markSolved (id : Nat) (s : State) : Option State :=
  let s1 : State := { s with solved := setInsert id s.solved }
  match mapLookup id s1.pending_on with
  | none => some s1
  | some dependents =>
    unblockAll dependents { s1 with pending_on := mapErase id s1.pending_on }

/-- One iteration of the `for dependency in dependencies` loop of
`Solver::mark_punted`: enqueue the dependency unless it is the punted
fragment itself, already solved, or already a punted key (note the punted
map already contains the freshly inserted entry for `id` at this point),
then append `id` to the `pending_on` entry of the dependency
(`entry(dependency).or_default().push(id)`). -/
def registerDep (id : Nat) (s : State) (dependency : Nat) : State :=
  let s1 : State :=
    if dependency ≠ id ∧ dependency ∉ s.solved ∧
        mapLookup dependency s.punted = none then
      { s with to_solve := setInsert dependency s.to_solve }
    else s
  let entry : List Nat := (mapLookup dependency s1.pending_on).getD [] ++ [id]
  { s1 with pending_on := mapInsert dependency entry s1.pending_on }

/-- The full dependency loop of `Solver::mark_punted`. -/
def registerDeps (id : Nat) (dependencies : List Nat) (s : State) : State :=
  match dependencies with
  | [] => s
  | d :: rest => registerDeps id rest (registerDep id s d)

/-- `Solver::mark_punted`: record the id in `punted` with the length of the
(filtered) dependency list as its count, then run the registration loop. -/
def markPunted (id : Nat) (dependencies : List Nat) (s : State) : State :=
  registerDeps id dependencies
    { s with punted := mapInsert id dependencies.length s.punted }

/-- A solver state together with the instrumentation of the `Problem`
boundary: the ids passed to `direct_dependencies` and to `evaluate`, in call
order, over the lifetime of the solver instance. -/
structure Trace where
  st : State
  ddCalls : List Nat
  evalCalls : List Nat
deriving Repr, DecidableEq

/-- A fresh solver (`Solver::new`): empty state, no `Problem` calls yet. -/
def Trace.fresh : Trace := ⟨State.initial, [], []⟩

/-- `Solver::enqueue_fragment`: an unconditional `to_solve.insert(id)`; it
makes no call into the `Problem` instance. -/
def enqueue_fragment (id : Nat) (t : Trace) : Trace :=
  { t with st := { t.st with to_solve := setInsert id t.st.to_solve } }

/-- `Solver::assume_evaluated`: exactly `mark_solved` on the current state,
with no call into the `Problem` instance. `none` models a panic. -/
def assume_evaluated (id : Nat) (t : Trace) : Option Trace :=
  (markSolved id t.st).map (fun s => { t with st := s })

/-- Result of one `Solver::step` call, for a caller-defined evaluation error
type. `noWork` is `Ok(false)`, `didWork` is `Ok(true)`, `evalError e` is
`Err(e)` propagated untouched from `Problem::evaluate`, and `panicked`
models an `unwrap` panic inside `mark_solved`. -/
inductive StepResult (e : Type) where
  | noWork : StepResult e
  | didWork : StepResult e
  | evalError : e → StepResult e
  | panicked : StepResult e
deriving Repr, DecidableEq

/-- The dependency list produced by `direct_dependencies` after the
`dependencies.retain(|x| !state.solved.contains(x))` filter in
`Solver::step`. -/
def remainingDeps (deps : Nat → List Nat) (id : Nat) (s : State) :
    List Nat :=
  (deps id).filter (fun x => x ∉ s.solved)

/-- `Solver::step`, given that the pop from `to_solve` selected `id` (the
extraction order of the underlying set is arbitrary; the reachability
relations below quantify over the choice and require `id ∈ to_solve`).
The step removes `id` from `to_solve`, queries `direct_dependencies`,
filters the result against `solved`, and then either punts (non-empty
remainder) or calls `evaluate`, whose outcome for this call is the
parameter `evalRes` (`none` = `Ok`). On `Ok` the solve is committed
through `mark_solved`; on `Err` the error is returned with no further
bookkeeping. A step on an empty `to_solve` set returns `Ok(false)` and
changes nothing, so it needs no transition. -/
def stepOn {e : Type} (deps : Nat → List Nat) (evalRes : Option e)
    (id : Nat) (t : Trace) : Trace × StepResult e :=
  let s0 : State := { t.st with to_solve := setErase id t.st.to_solve }
  let t1 : Trace := { st := s0, ddCalls := t.ddCalls ++ [id],
                      evalCalls := t.evalCalls }
  let ds : List Nat := remainingDeps deps id s0
  if ds = [] then
    let t2 : Trace := { t1 with evalCalls := t1.evalCalls ++ [id] }
    match evalRes with
    | some err => (t2, StepResult.evalError err)
    | none =>
      match markSolved id t2.st with
      | some s1 => ({ t2 with st := s1 }, StepResult.didWork)
      | none => (t2, StepResult.panicked)
  else
    ({ t1 with st := markPunted id ds s0 }, StepResult.didWork)

/-- All traces reachable from a given trace through the public operations
(`enqueue_fragment`, `assume_evaluated`, `step`, and therefore also `run`,
which is a loop of steps). Steps may pop any member of `to_solve` and the
evaluation outcome of each `evaluate` call is arbitrary; transitions that
would panic are excluded because a Rust panic aborts instead of producing an
observable successor state. The evaluation error value itself never
influences the state, so error outcomes are modelled with the unit error
type. -/
inductive Reaches (deps : Nat → List Nat) : Trace → Trace → Prop where
  | refl (t : Trace) : Reaches deps t t
  | enqueue {t t' : Trace} (id : Nat) :
      Reaches deps t t' → Reaches deps t (enqueue_fragment id t')
  | assume {t t' t'' : Trace} (id : Nat) :
      Reaches deps t t' → assume_evaluated id t' = some t'' →
      Reaches deps t t''
  | step {t t' t'' : Trace} (evalRes : Option Unit) (id : Nat)
      (r : StepResult Unit) :
      Reaches deps t t' → id ∈ t'.st.to_solve →
      stepOn deps evalRes id t' = (t'', r) → r ≠ StepResult.panicked →
      Reaches deps t t''

/-- Reachability under the usage discipline assumed by the spec invariants:
`enqueue_fragment` is only applied to ids that are neither solved nor
punted, and `assume_evaluated` only to ids that are neither queued in
`to_solve` nor punted. Steps are unrestricted. -/
inductive ReachesSafe (deps : Nat → List Nat) : Trace → Trace → Prop where
  | refl (t : Trace) : ReachesSafe deps t t
  | enqueue {t t' : Trace} (id : Nat) :
      ReachesSafe deps t t' → id ∉ t'.st.solved →
      mapLookup id t'.st.punted = none →
      ReachesSafe deps t (enqueue_fragment id t')
  | assume {t t' t'' : Trace} (id : Nat) :
      ReachesSafe deps t t' → id ∉ t'.st.to_solve →
      mapLookup id t'.st.punted = none →
      assume_evaluated id t' = some t'' →
      ReachesSafe deps t t''
  | step {t t' t'' : Trace} (evalRes : Option Unit) (id : Nat)
      (r : StepResult Unit) :
      ReachesSafe deps t t' → id ∈ t'.st.to_solve →
      stepOn deps evalRes id t' = (t'', r) → r ≠ StepResult.panicked →
      ReachesSafe deps t t''

/-! Basic facts about the container models. -/

theorem mem_setInsert {x id : Nat} {s : List Nat} :
    x ∈ setInsert id s ↔ x = id ∨ x ∈ s := by
  unfold setInsert
  split
  · rename_i h
    constructor
    · exact Or.inr
    · rintro (rfl | hx)
      · exact h
      · exact hx
  · simp [List.mem_append, or_comm]

theorem mem_setErase {x id : Nat} {s : List Nat} :
    x ∈ setErase id s ↔ x ∈ s ∧ x ≠ id := by
  simp [setErase, List.mem_filter]

theorem setInsert_of_mem {id : Nat} {s : List Nat} (h : id ∈ s) :
    setInsert id s = s := by
  simp [setInsert, h]

theorem mapLookup_append (k : Nat) (m1 m2 : List (Nat × α)) :
    mapLookup k (m1 ++ m2) =
      match mapLookup k m1 with
      | some v => some v
      | none => mapLookup k m2 := by
  induction m1 with
  | nil => rfl
  | cons p rest ih =>
    by_cases h : p.1 = k <;> simp [mapLookup, h, ih]

theorem mapLookup_mapErase (k k' : Nat) (m : List (Nat × α)) :
    mapLookup k (mapErase k' m) = if k = k' then none else mapLookup k m := by
  induction m with
  | nil =>
    simp only [mapErase, List.filter_nil, mapLookup]
    split <;> rfl
  | cons p rest ih =>
    by_cases hp : p.1 = k'
    · have : mapErase k' (p :: rest) = mapErase k' rest := by
        simp [mapErase, List.filter_cons, hp]
      rw [this, ih]
      by_cases hk : k = k'
      · simp [hk]
      · have hpk : p.1 ≠ k := by
          intro hc
          exact hk (by rw [← hc, hp])
        simp [hk, mapLookup, hpk]
    · have : mapErase k' (p :: rest) = p :: mapErase k' rest := by
        simp [mapErase, List.filter_cons, hp]
      rw [this]
      by_cases hpk : p.1 = k
      · have hk : ¬ k = k' := by
          intro hc
          exact hp (by rw [hpk, hc])
        simp [mapLookup, hpk, hk]
      · simp [mapLookup, hpk, ih]

theorem mapLookup_mapInsert (k k' : Nat) (v : α) (m : List (Nat × α)) :
    mapLookup k (mapInsert k' v m) =
      if k = k' then some v else mapLookup k m := by
  unfold mapInsert
  rw [mapLookup_append, mapLookup_mapErase]
  by_cases hk : k = k'
  · simp [hk, mapLookup]
  · have hk' : ¬ k' = k := fun h => hk h.symm
    simp only [if_neg hk]
    cases mapLookup k m
    · simp [mapLookup, hk']
    · rfl

/-! Characterization of the punt commit (`Solver::mark_punted`). -/

theorem registerDep_punted (id : Nat) (s : State) (d : Nat) :
    (registerDep id s d).punted = s.punted := by
  by_cases hc : d ≠ id ∧ d ∉ s.solved ∧ mapLookup d s.punted = none <;>
    simp [registerDep, hc]

theorem registerDep_solved (id : Nat) (s : State) (d : Nat) :
    (registerDep id s d).solved = s.solved := by
  by_cases hc : d ≠ id ∧ d ∉ s.solved ∧ mapLookup d s.punted = none <;>
    simp [registerDep, hc]

theorem registerDep_pending (id : Nat) (s : State) (d : Nat) :
    (registerDep id s d).pending_on =
      mapInsert d ((mapLookup d s.pending_on).getD [] ++ [id]) s.pending_on := by
  by_cases hc : d ≠ id ∧ d ∉ s.solved ∧ mapLookup d s.punted = none <;>
    simp [registerDep, hc]

theorem registerDep_to_solve (id : Nat) (s : State) (d x : Nat) :
    x ∈ (registerDep id s d).to_solve ↔
      x ∈ s.to_solve ∨
        (x = d ∧ d ≠ id ∧ d ∉ s.solved ∧ mapLookup d s.punted = none) := by
  by_cases hc : d ≠ id ∧ d ∉ s.solved ∧ mapLookup d s.punted = none
  · simp only [registerDep, if_pos hc]
    constructor
    · intro hx
      rcases mem_setInsert.1 hx with rfl | hx'
      · exact Or.inr ⟨rfl, hc⟩
      · exact Or.inl hx'
    · rintro (hx | ⟨rfl, _⟩)
      · exact mem_setInsert.2 (Or.inr hx)
      · exact mem_setInsert.2 (Or.inl rfl)
  · simp only [registerDep, if_neg hc]
    constructor
    · exact Or.inl
    · rintro (hx | ⟨rfl, h1, h2, h3⟩)
      · exact hx
      · exact absurd ⟨h1, h2, h3⟩ hc

theorem registerDeps_punted (id : Nat) (ds : List Nat) (s : State) :
    (registerDeps id ds s).punted = s.punted := by
  induction ds generalizing s with
  | nil => rfl
  | cons d rest ih => rw [registerDeps, ih, registerDep_punted]

theorem registerDeps_solved (id : Nat) (ds : List Nat) (s : State) :
    (registerDeps id ds s).solved = s.solved := by
  induction ds generalizing s with
  | nil => rfl
  | cons d rest ih => rw [registerDeps, ih, registerDep_solved]

theorem registerDeps_pending_not_mem (id : Nat) (ds : List Nat) (s : State)
    (d : Nat) (hd : d ∉ ds) :
    mapLookup d (registerDeps id ds s).pending_on =
      mapLookup d s.pending_on := by
  induction ds generalizing s with
  | nil => rfl
  | cons d0 rest ih =>
    have hne : d ≠ d0 := fun hc => hd (hc ▸ List.mem_cons_self d0 rest)
    have hdr : d ∉ rest := fun hc => hd (List.mem_cons_of_mem d0 hc)
    rw [registerDeps, ih _ hdr, registerDep_pending,
      mapLookup_mapInsert, if_neg hne]

theorem registerDeps_pending_mem (id : Nat) (ds : List Nat) (s : State)
    (d : Nat) (hd : d ∈ ds) :
    mapLookup d (registerDeps id ds s).pending_on =
      some ((mapLookup d s.pending_on).getD [] ++
        List.replicate (ds.count d) id) := by
  induction ds generalizing s with
  | nil => cases hd
  | cons d0 rest ih =>
    rw [registerDeps]
    by_cases hdr : d ∈ rest
    · rw [ih _ hdr, registerDep_pending, mapLookup_mapInsert]
      by_cases he : d = d0
      · subst he
        simp [List.count_cons_self, List.replicate_succ, List.append_assoc]
      · rw [if_neg he, List.count_cons_of_ne (by simpa using he)]
    · have he : d = d0 := by
        rcases List.mem_cons.1 hd with h | h
        · exact h
        · exact absurd h hdr
      subst he
      rw [registerDeps_pending_not_mem _ _ _ _ hdr, registerDep_pending,
        mapLookup_mapInsert, if_pos rfl,
        List.count_cons_self, List.count_eq_zero_of_not_mem hdr]
      simp

theorem registerDeps_to_solve (id : Nat) (ds : List Nat) (s : State)
    (x : Nat) :
    x ∈ (registerDeps id ds s).to_solve ↔
      x ∈ s.to_solve ∨
        (x ∈ ds ∧ x ≠ id ∧ x ∉ s.solved ∧ mapLookup x s.punted = none) := by
  induction ds generalizing s with
  | nil => simp [registerDeps]
  | cons d rest ih =>
    rw [registerDeps, ih, registerDep_solved, registerDep_punted]
    constructor
    · rintro (hx | ⟨hxr, hxi, hxs, hxp⟩)
      · rcases (registerDep_to_solve id s d x).1 hx with hx' | ⟨rfl, h1, h2, h3⟩
        · exact Or.inl hx'
        · exact Or.inr ⟨List.mem_cons_self _ _, h1, h2, h3⟩
      · exact Or.inr ⟨List.mem_cons_of_mem _ hxr, hxi, hxs, hxp⟩
    · rintro (hx | ⟨hxm, hxi, hxs, hxp⟩)
      · exact Or.inl ((registerDep_to_solve id s d x).2 (Or.inl hx))
      · rcases List.mem_cons.1 hxm with rfl | hxr
        · exact Or.inl
            ((registerDep_to_solve id s x x).2 (Or.inr ⟨rfl, hxi, hxs, hxp⟩))
        · exact Or.inr ⟨hxr, hxi, hxs, hxp⟩

theorem markPunted_punted (id : Nat) (ds : List Nat) (s : State) (k : Nat) :
    mapLookup k (markPunted id ds s).punted =
      if k = id then some ds.length else mapLookup k s.punted := by
  rw [markPunted, registerDeps_punted, mapLookup_mapInsert]

theorem markPunted_solved (id : Nat) (ds : List Nat) (s : State) :
    (markPunted id ds s).solved = s.solved := by
  rw [markPunted, registerDeps_solved]

theorem markPunted_pending_mem (id : Nat) (ds : List Nat) (s : State)
    (d : Nat) (hd : d ∈ ds) :
    mapLookup d (markPunted id ds s).pending_on =
      some ((mapLookup d s.pending_on).getD [] ++
        List.replicate (ds.count d) id) := by
  rw [markPunted, registerDeps_pending_mem _ _ _ _ hd]

theorem markPunted_pending_not_mem (id : Nat) (ds : List Nat) (s : State)
    (d : Nat) (hd : d ∉ ds) :
    mapLookup d (markPunted id ds s).pending_on =
      mapLookup d s.pending_on := by
  rw [markPunted, registerDeps_pending_not_mem _ _ _ _ hd]

theorem markPunted_to_solve (id : Nat) (ds : List Nat) (s : State) (x : Nat) :
    x ∈ (markPunted id ds s).to_solve ↔
      x ∈ s.to_solve ∨
        (x ∈ ds ∧ x ≠ id ∧ x ∉ s.solved ∧ mapLookup x s.punted = none) := by
  rw [markPunted, registerDeps_to_solve]
  constructor
  · rintro (hx | ⟨hm, hi, hs, hp⟩)
    · exact Or.inl hx
    · rw [mapLookup_mapInsert, if_neg hi] at hp
      exact Or.inr ⟨hm, hi, hs, hp⟩
  · rintro (hx | ⟨hm, hi, hs, hp⟩)
    · exact Or.inl hx
    · exact Or.inr ⟨hm, hi, hs, by rw [mapLookup_mapInsert, if_neg hi]; exact hp⟩

/-! Characterization of the solve commit (`Solver::mark_solved`). The
unblocking loop succeeds exactly when every dependent in the processed list
has a punted entry at least as large as its number of occurrences in the
list; on success each count drops by the occurrence count, dependents whose
count reaches zero move from `punted` to `to_solve`, and nothing else
changes. -/

theorem unblockAll_char (l : List Nat) (s s' : State)
    (h : unblockAll l s = some s') :
    s'.pending_on = s.pending_on ∧ s'.solved = s.solved ∧
    (∀ k, k ∉ l → mapLookup k s'.punted = mapLookup k s.punted) ∧
    (∀ k, k ∈ l → ∃ n, mapLookup k s.punted = some n ∧ 1 ≤ n ∧
        l.count k ≤ n ∧
        mapLookup k s'.punted =
          (if l.count k < n then some (n - l.count k) else none)) ∧
    (∀ x, x ∈ s'.to_solve ↔
        x ∈ s.to_solve ∨ (x ∈ l ∧ mapLookup x s.punted = some (l.count x))) := by
  induction l generalizing s with
  | nil =>
    simp only [unblockAll] at h
    injection h with h
    subst h
    exact ⟨rfl, rfl, fun k _ => rfl,
      fun k hk => absurd hk (List.not_mem_nil k), fun x => by simp⟩
  | cons d rest ih =>
    simp only [unblockAll] at h
    cases hu : unblockOne s d with
    | none =>
      rw [hu] at h
      have h' : (none : Option State) = some s' := h
      cases h'
    | some s1 =>
      rw [hu] at h
      have h' : unblockAll rest s1 = some s' := h
      obtain ⟨hpo1, hso1, hnotin, hin, hts⟩ := ih s1 h'
      rw [unblockOne] at hu
      cases hl : mapLookup d s.punted with
      | none =>
        rw [hl] at hu
        have hu2 : (none : Option State) = some s1 := hu
        cases hu2
      | some n =>
        rw [hl] at hu
        have hu' : unblockCount s d n = some s1 := hu
        rw [unblockCount] at hu'
        by_cases h0 : n = 0
        · rw [if_pos h0] at hu'
          cases hu'
        · rw [if_neg h0] at hu'
          by_cases h1 : n = 1
          · subst h1
            rw [if_pos rfl] at hu'
            injection hu' with he
            subst he
            have hdr : d ∉ rest := by
              intro hmem
              obtain ⟨nn, hnn, -, -, -⟩ := hin d hmem
              have hnn' : mapLookup d (mapErase d s.punted) = some nn := hnn
              rw [mapLookup_mapErase, if_pos rfl] at hnn'
              cases hnn'
            have hcount : (d :: rest).count d = 1 := by
              rw [List.count_cons_self, List.count_eq_zero_of_not_mem hdr]
            refine ⟨hpo1, hso1, ?_, ?_, ?_⟩
            · intro k hk
              have hkd : k ≠ d := fun hc => hk (hc ▸ List.mem_cons_self d rest)
              have hkr : k ∉ rest := fun hc => hk (List.mem_cons_of_mem d hc)
              have h2 : mapLookup k s'.punted =
                  mapLookup k (mapErase d s.punted) := hnotin k hkr
              rw [mapLookup_mapErase, if_neg hkd] at h2
              exact h2
            · intro k hk
              by_cases hkd : k = d
              · subst hkd
                refine ⟨1, hl, le_refl 1, by rw [hcount], ?_⟩
                have h2 : mapLookup k s'.punted =
                    mapLookup k (mapErase k s.punted) := hnotin k hdr
                rw [mapLookup_mapErase, if_pos rfl] at h2
                rw [hcount, if_neg (lt_irrefl 1)]
                exact h2
              · have hkr : k ∈ rest := by
                  rcases List.mem_cons.1 hk with hc | hc
                  · exact absurd hc hkd
                  · exact hc
                obtain ⟨nn, hnn, hge, hcnt, hres⟩ := hin k hkr
                have hnn' : mapLookup k (mapErase d s.punted) = some nn := hnn
                rw [mapLookup_mapErase, if_neg hkd] at hnn'
                refine ⟨nn, hnn', hge, ?_, ?_⟩
                · rw [List.count_cons_of_ne hkd]
                  exact hcnt
                · rw [List.count_cons_of_ne hkd]
                  exact hres
            · intro x
              constructor
              · intro hx
                rcases (hts x).1 hx with hx1 | ⟨hxr, hxp⟩
                · have hx1' : x ∈ setInsert d s.to_solve := hx1
                  rcases mem_setInsert.1 hx1' with rfl | hx2
                  · exact Or.inr ⟨List.mem_cons_self _ _,
                      by rw [hcount]; exact hl⟩
                  · exact Or.inl hx2
                · have hxd : x ≠ d := fun hc => hdr (hc ▸ hxr)
                  have hxp' : mapLookup x (mapErase d s.punted) =
                      some (rest.count x) := hxp
                  rw [mapLookup_mapErase, if_neg hxd] at hxp'
                  refine Or.inr ⟨List.mem_cons_of_mem _ hxr, ?_⟩
                  rw [List.count_cons_of_ne hxd]
                  exact hxp'
              · intro hx
                refine (hts x).2 ?_
                rcases hx with hx1 | ⟨hxm, hxp⟩
                · exact Or.inl
                    (show x ∈ setInsert d s.to_solve from
                      mem_setInsert.2 (Or.inr hx1))
                · rcases List.mem_cons.1 hxm with rfl | hxr
                  · exact Or.inl
                      (show x ∈ setInsert x s.to_solve from
                        mem_setInsert.2 (Or.inl rfl))
                  · have hxd : x ≠ d := fun hc => hdr (hc ▸ hxr)
                    refine Or.inr ⟨hxr, ?_⟩
                    show mapLookup x (mapErase d s.punted) =
                      some (rest.count x)
                    rw [mapLookup_mapErase, if_neg hxd]
                    rw [List.count_cons_of_ne hxd] at hxp
                    exact hxp
          · rw [if_neg h1] at hu'
            injection hu' with he
            subst he
            have hn2 : 2 ≤ n := by omega
            refine ⟨hpo1, hso1, ?_, ?_, ?_⟩
            · intro k hk
              have hkd : k ≠ d := fun hc => hk (hc ▸ List.mem_cons_self d rest)
              have hkr : k ∉ rest := fun hc => hk (List.mem_cons_of_mem d hc)
              have h2 : mapLookup k s'.punted =
                  mapLookup k (mapInsert d (n - 1) s.punted) := hnotin k hkr
              rw [mapLookup_mapInsert, if_neg hkd] at h2
              exact h2
            · intro k hk
              by_cases hkd : k = d
              · subst hkd
                by_cases hdr : k ∈ rest
                · obtain ⟨nn, hnn, hge, hcnt, hres⟩ := hin k hdr
                  have hnn' : mapLookup k (mapInsert k (n - 1) s.punted) =
                      some nn := hnn
                  rw [mapLookup_mapInsert, if_pos rfl] at hnn'
                  injection hnn' with he2
                  refine ⟨n, hl, by omega, ?_, ?_⟩
                  · rw [List.count_cons_self]
                    omega
                  · rw [List.count_cons_self, hres, ← he2]
                    by_cases hc : rest.count k < n - 1
                    · rw [if_pos hc, if_pos (by omega)]
                      congr 1
                      omega
                    · rw [if_neg hc, if_neg (by omega)]
                · have hres : mapLookup k s'.punted =
                      mapLookup k (mapInsert k (n - 1) s.punted) :=
                    hnotin k hdr
                  rw [mapLookup_mapInsert, if_pos rfl] at hres
                  have hcnt1 : (k :: rest).count k = 1 := by
                    rw [List.count_cons_self,
                      List.count_eq_zero_of_not_mem hdr]
                  refine ⟨n, hl, by omega, by rw [hcnt1]; omega, ?_⟩
                  rw [hcnt1, if_pos (by omega)]
                  exact hres
              · have hkr : k ∈ rest := by
                  rcases List.mem_cons.1 hk with hc | hc
                  · exact absurd hc hkd
                  · exact hc
                obtain ⟨nn, hnn, hge, hcnt, hres⟩ := hin k hkr
                have hnn' : mapLookup k (mapInsert d (n - 1) s.punted) =
                    some nn := hnn
                rw [mapLookup_mapInsert, if_neg hkd] at hnn'
                refine ⟨nn, hnn', hge, ?_, ?_⟩
                · rw [List.count_cons_of_ne hkd]
                  exact hcnt
                · rw [List.count_cons_of_ne hkd]
                  exact hres
            · intro x
              constructor
              · intro hx
                rcases (hts x).1 hx with hx1 | ⟨hxr, hxp⟩
                · exact Or.inl hx1
                · by_cases hxd : x = d
                  · subst hxd
                    have hxp' : mapLookup x (mapInsert x (n - 1) s.punted) =
                        some (rest.count x) := hxp
                    rw [mapLookup_mapInsert, if_pos rfl] at hxp'
                    injection hxp' with he2
                    refine Or.inr ⟨List.mem_cons_self _ _, ?_⟩
                    rw [hl, List.count_cons_self]
                    simp only [Option.some.injEq]
                    omega
                  · have hxp' : mapLookup x (mapInsert d (n - 1) s.punted) =
                        some (rest.count x) := hxp
                    rw [mapLookup_mapInsert, if_neg hxd] at hxp'
                    refine Or.inr ⟨List.mem_cons_of_mem _ hxr, ?_⟩
                    rw [List.count_cons_of_ne hxd]
                    exact hxp'
              · intro hx
                refine (hts x).2 ?_
                rcases hx with hx1 | ⟨hxm, hxp⟩
                · exact Or.inl hx1
                · by_cases hxd : x = d
                  · subst hxd
                    rw [hl] at hxp
                    injection hxp with he2
                    rw [List.count_cons_self] at he2
                    have hdr2 : x ∈ rest := by
                      by_contra hno
                      rw [List.count_eq_zero_of_not_mem hno] at he2
                      omega
                    refine Or.inr ⟨hdr2, ?_⟩
                    show mapLookup x (mapInsert x (n - 1) s.punted) =
                      some (rest.count x)
                    rw [mapLookup_mapInsert, if_pos rfl]
                    simp only [Option.some.injEq]
                    omega
                  · have hxr : x ∈ rest := by
                      rcases List.mem_cons.1 hxm with hc | hc
                      · exact absurd hc hxd
                      · exact hc
                    refine Or.inr ⟨hxr, ?_⟩
                    show mapLookup x (mapInsert d (n - 1) s.punted) =
                      some (rest.count x)
                    rw [mapLookup_mapInsert, if_neg hxd,
                      ← List.count_cons_of_ne hxd]
                    exact hxp

theorem markSolved_char (id : Nat) (s s' : State)
    (h : markSolved id s = some s') :
    (∀ x, x ∈ s'.solved ↔ x = id ∨ x ∈ s.solved) ∧
    mapLookup id s'.pending_on = none ∧
    (∀ d, d ≠ id → mapLookup d s'.pending_on = mapLookup d s.pending_on) ∧
    (∀ k, k ∉ (mapLookup id s.pending_on).getD [] →
        mapLookup k s'.punted = mapLookup k s.punted) ∧
    (∀ k, k ∈ (mapLookup id s.pending_on).getD [] →
        ∃ n, mapLookup k s.punted = some n ∧ 1 ≤ n ∧
          ((mapLookup id s.pending_on).getD []).count k ≤ n ∧
          mapLookup k s'.punted =
            (if ((mapLookup id s.pending_on).getD []).count k < n then
              some (n - ((mapLookup id s.pending_on).getD []).count k)
            else none)) ∧
    (∀ x, x ∈ s'.to_solve ↔
        x ∈ s.to_solve ∨
          (x ∈ (mapLookup id s.pending_on).getD [] ∧
            mapLookup x s.punted =
              some (((mapLookup id s.pending_on).getD []).count x))) := by
  simp only [markSolved] at h
  cases hpo : mapLookup id s.pending_on with
  | none =>
    rw [hpo] at h
    have h' : some ({ s with solved := setInsert id s.solved }) = some s' := h
    injection h' with h'
    subst h'
    refine ⟨fun x => mem_setInsert, hpo, fun d _ => rfl, fun k _ => rfl,
      ?_, ?_⟩
    · intro k hk
      simp at hk
    · intro x
      simp
  | some deps =>
    rw [hpo] at h
    have h' : unblockAll deps
        { s with pending_on := mapErase id s.pending_on,
                 solved := setInsert id s.solved } = some s' := h
    obtain ⟨hpo', hso', hnotin, hin, hts⟩ := unblockAll_char deps _ s' h'
    refine ⟨?_, ?_, ?_, ?_, ?_, ?_⟩
    · intro x
      rw [hso']
      exact mem_setInsert
    · rw [hpo']
      show mapLookup id (mapErase id s.pending_on) = none
      rw [mapLookup_mapErase, if_pos rfl]
    · intro d hd
      rw [hpo']
      show mapLookup d (mapErase id s.pending_on) = mapLookup d s.pending_on
      rw [mapLookup_mapErase, if_neg hd]
    · intro k hk
      rw [Option.getD_some] at hk
      exact hnotin k hk
    · intro k hk
      rw [Option.getD_some] at hk
      simp only [Option.getD_some]
      exact hin k hk
    · intro x
      simp only [Option.getD_some]
      exact hts x

theorem markSolved_none_pending (id : Nat) (s : State)
    (h : mapLookup id s.pending_on = none) :
    markSolved id s = some { s with solved := setInsert id s.solved } := by
  simp only [markSolved]
  rw [h]

theorem markSolved_solved_mono (id : Nat) (s s' : State)
    (h : markSolved id s = some s') : ∀ x, x ∈ s.solved → x ∈ s'.solved :=
  fun x hx => ((markSolved_char id s s' h).1 x).2 (Or.inr hx)

/-! Branch equations and inversion for `Solver::step`. -/

theorem remainingDeps_congr (deps : Nat → List Nat) (id : Nat)
    (v : List Nat) (s : State) :
    remainingDeps deps id { s with to_solve := v } =
      remainingDeps deps id s := rfl

theorem stepOn_punt {e : Type} (deps : Nat → List Nat) (evalRes : Option e)
    (id : Nat) (t : Trace)
    (hds : remainingDeps deps id t.st ≠ []) :
    stepOn deps evalRes id t =
      ({ st := markPunted id (remainingDeps deps id t.st)
                 { t.st with to_solve := setErase id t.st.to_solve },
         ddCalls := t.ddCalls ++ [id], evalCalls := t.evalCalls },
       StepResult.didWork) := by
  simp only [stepOn]
  rw [remainingDeps_congr, if_neg hds]

theorem stepOn_eval_err {e : Type} (deps : Nat → List Nat) (err : e)
    (id : Nat) (t : Trace)
    (hds : remainingDeps deps id t.st = []) :
    stepOn deps (some err) id t =
      ({ st := { t.st with to_solve := setErase id t.st.to_solve },
         ddCalls := t.ddCalls ++ [id],
         evalCalls := t.evalCalls ++ [id] },
       StepResult.evalError err) := by
  simp only [stepOn]
  rw [remainingDeps_congr, if_pos hds]

theorem stepOn_eval_ok {e : Type} (deps : Nat → List Nat)
    (id : Nat) (t : Trace) (s1 : State)
    (hds : remainingDeps deps id t.st = [])
    (hm : markSolved id { t.st with to_solve := setErase id t.st.to_solve } =
      some s1) :
    stepOn deps (none : Option e) id t =
      ({ st := s1, ddCalls := t.ddCalls ++ [id],
         evalCalls := t.evalCalls ++ [id] }, StepResult.didWork) := by
  simp only [stepOn]
  rw [remainingDeps_congr, if_pos hds, hm]

theorem stepOn_eval_panic {e : Type} (deps : Nat → List Nat)
    (id : Nat) (t : Trace)
    (hds : remainingDeps deps id t.st = [])
    (hm : markSolved id { t.st with to_solve := setErase id t.st.to_solve } =
      none) :
    stepOn deps (none : Option e) id t =
      ({ st := { t.st with to_solve := setErase id t.st.to_solve },
         ddCalls := t.ddCalls ++ [id],
         evalCalls := t.evalCalls ++ [id] },
       StepResult.panicked) := by
  simp only [stepOn]
  rw [remainingDeps_congr, if_pos hds, hm]

theorem stepOn_inv {e : Type} {deps : Nat → List Nat} {evalRes : Option e}
    {id : Nat} {t t' : Trace} {r : StepResult e}
    (h : stepOn deps evalRes id t = (t', r))
    (hr : r ≠ StepResult.panicked) :
    (remainingDeps deps id t.st ≠ [] ∧
      t' = { st := markPunted id (remainingDeps deps id t.st)
                     { t.st with to_solve := setErase id t.st.to_solve },
             ddCalls := t.ddCalls ++ [id], evalCalls := t.evalCalls } ∧
      r = StepResult.didWork) ∨
    (remainingDeps deps id t.st = [] ∧
      ((∃ s1, markSolved id
            { t.st with to_solve := setErase id t.st.to_solve } = some s1 ∧
          t' = { st := s1, ddCalls := t.ddCalls ++ [id],
                 evalCalls := t.evalCalls ++ [id] } ∧
          r = StepResult.didWork) ∨
        (∃ err, evalRes = some err ∧
          t' = { st := { t.st with to_solve := setErase id t.st.to_solve },
                 ddCalls := t.ddCalls ++ [id],
                 evalCalls := t.evalCalls ++ [id] } ∧
          r = StepResult.evalError err))) := by
  by_cases hds : remainingDeps deps id t.st = []
  · cases evalRes with
    | some err =>
      rw [stepOn_eval_err deps err id t hds] at h
      injection h with h1 h2
      exact Or.inr ⟨hds, Or.inr ⟨err, rfl, h1.symm, h2.symm⟩⟩
    | none =>
      cases hm : markSolved id
          { t.st with to_solve := setErase id t.st.to_solve } with
      | some s1 =>
        rw [stepOn_eval_ok deps id t s1 hds hm] at h
        injection h with h1 h2
        exact Or.inr ⟨hds, Or.inl ⟨s1, rfl, h1.symm, h2.symm⟩⟩
      | none =>
        rw [stepOn_eval_panic deps id t hds hm] at h
        injection h with h1 h2
        exact absurd h2.symm hr
  · rw [stepOn_punt deps evalRes id t hds] at h
    injection h with h1 h2
    exact Or.inl ⟨hds, h1.symm, h2.symm⟩

theorem stepOn_ddCalls {e : Type} (deps : Nat → List Nat)
    (evalRes : Option e) (id : Nat) (t : Trace) :
    ((stepOn deps evalRes id t).1).ddCalls = t.ddCalls ++ [id] := by
  by_cases hds : remainingDeps deps id t.st = []
  · cases evalRes with
    | some err => rw [stepOn_eval_err deps err id t hds]
    | none =>
      cases hm : markSolved id
          { t.st with to_solve := setErase id t.st.to_solve } with
      | some s1 => rw [stepOn_eval_ok deps id t s1 hds hm]
      | none => rw [stepOn_eval_panic deps id t hds hm]
  · rw [stepOn_punt deps evalRes id t hds]

/-! Invariants over the reachability relations. -/

theorem assume_evaluated_some {id : Nat} {t t'' : Trace}
    (h : assume_evaluated id t = some t'') :
    ∃ s, markSolved id t.st = some s ∧ t'' = { t with st := s } := by
  unfold assume_evaluated at h
  cases hm : markSolved id t.st with
  | none =>
    rw [hm] at h
    simp at h
  | some s =>
    rw [hm] at h
    have h2 : some ({ t with st := s }) = some t'' := h
    injection h2 with h2
    exact ⟨s, rfl, h2.symm⟩

/-- No public operation ever removes an id from `solved`. -/
theorem Reaches_solved_mono {deps : Nat → List Nat} {t t' : Trace}
    (h : Reaches deps t t') : ∀ x, x ∈ t.st.solved → x ∈ t'.st.solved := by
  induction h with
  | refl => exact fun x hx => hx
  | enqueue id h ih => exact fun x hx => ih x hx
  | assume id h ha ih =>
    intro x hx
    obtain ⟨s, hm, rfl⟩ := assume_evaluated_some ha
    exact markSolved_solved_mono _ _ _ hm x (ih x hx)
  | step evalRes id r h hmem hstep hr ih =>
    intro x hx
    rcases stepOn_inv hstep hr with ⟨hds, rfl, -⟩ | ⟨hds, hcase⟩
    · show x ∈ (markPunted _ _ _).solved
      rw [markPunted_solved]
      exact ih x hx
    · rcases hcase with ⟨s1, hm, rfl, -⟩ | ⟨err, -, rfl, -⟩
      · exact markSolved_solved_mono _ _ _ hm x (ih x hx)
      · exact ih x hx

/-- Every key of `pending_on` is an unsolved fragment: dependents are only
registered for dependencies that survived the `solved` filter, and solving a
fragment removes its `pending_on` entry. -/
def PendingUnsolved (s : State) : Prop :=
  ∀ d, mapLookup d s.pending_on ≠ none → d ∉ s.solved

theorem pendingUnsolved_markSolved {id : Nat} {s s' : State}
    (hI : PendingUnsolved s) (hm : markSolved id s = some s') :
    PendingUnsolved s' := by
  obtain ⟨hsol, hpid, hpne, -, -, -⟩ := markSolved_char id s s' hm
  intro d hd
  by_cases hdi : d = id
  · subst hdi
    exact absurd hpid hd
  · rw [hpne d hdi] at hd
    intro hds
    rcases (hsol d).1 hds with rfl | hds'
    · exact hdi rfl
    · exact hI d hd hds'

theorem pendingUnsolved_markPunted {id : Nat} {ds : List Nat} {s : State}
    (hI : PendingUnsolved s) (hds : ∀ d ∈ ds, d ∉ s.solved) :
    PendingUnsolved (markPunted id ds s) := by
  intro d hd
  rw [markPunted_solved]
  by_cases hmem : d ∈ ds
  · exact hds d hmem
  · rw [markPunted_pending_not_mem _ _ _ _ hmem] at hd
    exact hI d hd

theorem pendingUnsolved_step_solve {id : Nat} {s s1 : State}
    (hI : PendingUnsolved s)
    (hm : markSolved id { s with to_solve := setErase id s.to_solve } =
      some s1) :
    PendingUnsolved s1 := by
  have hI0 : PendingUnsolved { s with to_solve := setErase id s.to_solve } :=
    hI
  exact pendingUnsolved_markSolved hI0 hm

theorem Reaches_pendingUnsolved {deps : Nat → List Nat} {t t' : Trace}
    (h : Reaches deps t t') (hI : PendingUnsolved t.st) :
    PendingUnsolved t'.st := by
  induction h with
  | refl => exact hI
  | enqueue id h ih => exact ih
  | assume id h ha ih =>
    obtain ⟨s, hm, rfl⟩ := assume_evaluated_some ha
    exact pendingUnsolved_markSolved ih hm
  | step evalRes id r h hmem hstep hr ih =>
    rcases stepOn_inv hstep hr with ⟨hds, rfl, -⟩ | ⟨hds, hcase⟩
    · refine pendingUnsolved_markPunted ih ?_
      intro d hd
      simp [remainingDeps] at hd
      exact hd.2
    · rcases hcase with ⟨s1, hm, rfl, -⟩ | ⟨err, -, rfl, -⟩
      · exact pendingUnsolved_step_solve ih hm
      · exact ih

/-- The disjointness invariant of the spec: an id queued in `to_solve` is
neither punted nor solved, and a punted id is not solved. -/
def DisjInv (s : State) : Prop :=
  (∀ x, x ∈ s.to_solve → mapLookup x s.punted = none ∧ x ∉ s.solved) ∧
  (∀ k n, mapLookup k s.punted = some n → k ∉ s.solved)

theorem disjInv_enqueue {id : Nat} {s : State} (hI : DisjInv s)
    (hsolv : id ∉ s.solved) (hpu : mapLookup id s.punted = none) :
    DisjInv { s with to_solve := setInsert id s.to_solve } := by
  constructor
  · intro x hx
    rcases mem_setInsert.1 hx with rfl | hx'
    · exact ⟨hpu, hsolv⟩
    · exact hI.1 x hx'
  · exact hI.2

theorem disjInv_erase {id : Nat} {s : State} (hI : DisjInv s) :
    DisjInv { s with to_solve := setErase id s.to_solve } := by
  constructor
  · intro x hx
    exact hI.1 x (mem_setErase.1 hx).1
  · exact hI.2

theorem disjInv_markSolved {id : Nat} {s s' : State}
    (hI : DisjInv s) (hpu : mapLookup id s.punted = none)
    (hts : id ∉ s.to_solve)
    (hm : markSolved id s = some s') : DisjInv s' := by
  obtain ⟨hsol, -, -, hkeep, hmem, hts'⟩ := markSolved_char id s s' hm
  constructor
  · intro x hx
    rcases (hts' x).1 hx with hx1 | ⟨hxl, hxp⟩
    · obtain ⟨hxpu, hxs⟩ := hI.1 x hx1
      have hxid : x ≠ id := fun hc => hts (hc ▸ hx1)
      constructor
      · by_cases hxl : x ∈ (mapLookup id s.pending_on).getD []
        · obtain ⟨n, hn, -, -, -⟩ := hmem x hxl
          rw [hxpu] at hn
          cases hn
        · rw [hkeep x hxl]
          exact hxpu
      · intro hxs'
        rcases (hsol x).1 hxs' with rfl | hc
        · exact hxid rfl
        · exact hxs hc
    · obtain ⟨n, hn, hge, hcnt, hres⟩ := hmem x hxl
      have hxid : x ≠ id := by
        intro hc
        rw [hc, hpu] at hn
        cases hn
      have hne : n = ((mapLookup id s.pending_on).getD []).count x := by
        rw [hxp] at hn
        injection hn with h2
        exact h2.symm
      refine ⟨?_, ?_⟩
      · rw [hres, if_neg (by omega)]
      · intro hxs'
        rcases (hsol x).1 hxs' with rfl | hc
        · exact hxid rfl
        · exact hI.2 x _ hxp hc
  · intro k n hk
    by_cases hkl : k ∈ (mapLookup id s.pending_on).getD []
    · obtain ⟨m, hm2, -, -, -⟩ := hmem k hkl
      intro hks
      rcases (hsol k).1 hks with rfl | hc
      · rw [hpu] at hm2
        cases hm2
      · exact hI.2 k m hm2 hc
    · rw [hkeep k hkl] at hk
      intro hks
      rcases (hsol k).1 hks with rfl | hc
      · rw [hpu] at hk
        cases hk
      · exact hI.2 k n hk hc

theorem disjInv_step_punt {deps : Nat → List Nat} {id : Nat} {s : State}
    (hI : DisjInv s) (hid_ts : id ∈ s.to_solve) :
    DisjInv (markPunted id (remainingDeps deps id s)
      { s with to_solve := setErase id s.to_solve }) := by
  obtain ⟨hpu, hsolv⟩ := hI.1 id hid_ts
  constructor
  · intro x hx
    rw [markPunted_to_solve] at hx
    constructor
    · rw [markPunted_punted]
      rcases hx with hx1 | ⟨hxm, hxi, hxs, hxp⟩
      · have hx1' : x ∈ s.to_solve ∧ x ≠ id := mem_setErase.1 hx1
        rw [if_neg hx1'.2]
        exact (hI.1 x hx1'.1).1
      · rw [if_neg hxi]
        exact hxp
    · rw [markPunted_solved]
      rcases hx with hx1 | ⟨hxm, hxi, hxs, hxp⟩
      · exact (hI.1 x (mem_setErase.1 hx1).1).2
      · exact hxs
  · intro k n hk
    rw [markPunted_punted] at hk
    rw [markPunted_solved]
    by_cases hki : k = id
    · subst hki
      exact hsolv
    · rw [if_neg hki] at hk
      exact hI.2 k n hk

theorem disjInv_step_solve {id : Nat} {s s1 : State}
    (hI : DisjInv s) (hmem : id ∈ s.to_solve)
    (hm : markSolved id { s with to_solve := setErase id s.to_solve } =
      some s1) :
    DisjInv s1 := by
  have h0 : DisjInv { s with to_solve := setErase id s.to_solve } :=
    disjInv_erase hI
  have hpu : mapLookup id s.punted = none := (hI.1 id hmem).1
  have hts0 : id ∉ setErase id s.to_solve :=
    fun hc => (mem_setErase.1 hc).2 rfl
  exact disjInv_markSolved h0 hpu hts0 hm

theorem ReachesSafe_disjInv {deps : Nat → List Nat} {t t' : Trace}
    (h : ReachesSafe deps t t') (hI : DisjInv t.st) : DisjInv t'.st := by
  induction h with
  | refl => exact hI
  | enqueue id h hsolv hpu ih => exact disjInv_enqueue ih hsolv hpu
  | assume id h hts hpu ha ih =>
    obtain ⟨s, hm, rfl⟩ := assume_evaluated_some ha
    exact disjInv_markSolved ih hpu hts hm
  | step evalRes id r h hmem hstep hr ih =>
    rcases stepOn_inv hstep hr with ⟨hds, rfl, -⟩ | ⟨hds, hcase⟩
    · exact disjInv_step_punt ih hmem
    · rcases hcase with ⟨s1, hm, rfl, -⟩ | ⟨err, -, rfl, -⟩
      · exact disjInv_step_solve ih hmem hm
      · exact disjInv_erase ih

theorem DisjInv_fresh : DisjInv Trace.fresh.st := by
  constructor
  · intro x hx
    cases hx
  · intro k n hk
    cases hk

/-! Concrete problem instances and operation sequences used to settle the
claims. `depsNone` is a problem whose fragments have no dependencies,
`depsLine` is the one-edge graph `0 -> 1`, `depsDiamond` is `0 -> 1, 0 -> 2`.
All steps below pop a fragment that is a member of `to_solve` at that point,
so every sequence is a legal execution of the public API. -/

def depsNone : Nat → List Nat := fun _ => []

def depsLine : Nat → List Nat := fun n => if n = 0 then [1] else []

def depsDiamond : Nat → List Nat := fun n => if n = 0 then [1, 2] else []

def c1t1 : Trace := enqueue_fragment 0 Trace.fresh

def c1t2 : Trace := (stepOn depsNone (none : Option Unit) 0 c1t1).1

def c1t3 : Trace := enqueue_fragment 0 c1t2

def c1t4 : Trace := (stepOn depsNone (none : Option Unit) 0 c1t3).1

/-- The trace enqueue 0; step; enqueue 0 (with no dependencies anywhere) is
reachable through the public operations from a fresh solver. -/
theorem reaches_c1t3 : Reaches depsNone Trace.fresh c1t3 := by
  have h1 : Reaches depsNone Trace.fresh c1t1 :=
    Reaches.enqueue 0 (Reaches.refl _)
  have h2 : Reaches depsNone Trace.fresh c1t2 :=
    Reaches.step (none : Option Unit) 0 StepResult.didWork h1 (by decide)
      rfl (by decide)
  exact Reaches.enqueue 0 h2

/-- C1: the claim says `Problem::evaluate` is invoked at most once per
fragment id over the lifetime of a solver instance, and the doc comment on
`Problem::evaluate` in `src/lib.rs` promises the same. The code breaks it:
`enqueue_fragment` inserts unconditionally, so enqueueing a fragment that is
already solved makes the next step evaluate it again. With no dependencies,
the sequence enqueue 0; step; enqueue 0; step calls `evaluate` on fragment 0
twice (call log `[0, 0]`); both pops are legal since 0 is the only queued
fragment. -/
theorem C1_evaluate_called_twice :
    0 ∈ c1t1.st.to_solve ∧
    (stepOn depsNone (none : Option Unit) 0 c1t1).2 = StepResult.didWork ∧
    c1t2.evalCalls = [0] ∧ 0 ∈ c1t2.st.solved ∧
    0 ∈ c1t3.st.to_solve ∧
    (stepOn depsNone (none : Option Unit) 0 c1t3).2 = StepResult.didWork ∧
    c1t4.evalCalls = [0, 0] ∧ (c1t4.evalCalls.count 0 = 2) := by
  decide

def c2t1 : Trace := enqueue_fragment 0 Trace.fresh

def c2t2 : Trace := (stepOn depsLine (none : Option Unit) 0 c2t1).1

def c2t3 : Trace := (stepOn depsLine (none : Option Unit) 1 c2t2).1

def c2t4 : Trace := (stepOn depsLine (none : Option Unit) 0 c2t3).1

/-- C2 counterexample: on the graph `0 -> 1`, fragment 0 is examined and
recorded as punted, fragment 1 is solved which unblocks 0, and the step that
re-examines 0 queries `direct_dependencies(0)` a second time: the call log
is `[0, 1, 0]`. So `direct_dependencies` is called again for a fragment
after it was recorded as punted, contrary to the claim. Every pop below
removes the sole member of `to_solve`. -/
theorem C2_counterexample :
    0 ∈ c2t1.st.to_solve ∧
    mapLookup 0 c2t2.st.punted = some 1 ∧
    1 ∈ c2t2.st.to_solve ∧
    0 ∈ c2t3.st.to_solve ∧
    c2t4.ddCalls = [0, 1, 0] ∧ c2t4.ddCalls.count 0 = 2 := by
  decide

/-- C2 amended: each `step` makes exactly one `direct_dependencies` call,
namely for the id it popped from `to_solve`, and `enqueue_fragment` and
`assume_evaluated` make none; so a fragment id is queried once per
examination, and can be queried again over the solver lifetime when a
punted fragment is unblocked (or a tracked fragment re-enqueued) and
re-examined. -/
theorem C2_amended_one_query_per_examination {e : Type}
    (deps : Nat → List Nat) (evalRes : Option e) (id : Nat) (t t' : Trace) :
    ((stepOn deps evalRes id t).1).ddCalls = t.ddCalls ++ [id] ∧
    (enqueue_fragment id t).ddCalls = t.ddCalls ∧
    (assume_evaluated id t = some t' → t'.ddCalls = t.ddCalls) := by
  refine ⟨stepOn_ddCalls deps evalRes id t, rfl, ?_⟩
  intro h
  obtain ⟨s, hm, rfl⟩ := assume_evaluated_some h
  rfl

def c2w : Trace := ⟨⟨[0], [], [], [0]⟩, [], []⟩

theorem C2_amended_witness :
    ((stepOn depsLine (none : Option Unit) 0 c2t1).1).ddCalls =
      c2t1.ddCalls ++ [0] ∧ c2w.ddCalls = c2t1.ddCalls :=
  ⟨(C2_amended_one_query_per_examination depsLine (none : Option Unit) 0
      c2t1 c2w).1,
   (C2_amended_one_query_per_examination depsLine (none : Option Unit) 0
      c2t1 c2w).2.2 (by decide)⟩

/-- C3 counterexample: from a fresh solver, enqueue 0; step (which solves
0); enqueue 0 again, is a legal operation sequence, and it leaves fragment 0
in `to_solve` and in `solved` at once, refuting the claimed disjointness of
reachable states. -/
theorem C3_counterexample :
    Reaches depsNone Trace.fresh c1t3 ∧
    0 ∈ c1t3.st.to_solve ∧ 0 ∈ c1t3.st.solved :=
  ⟨reaches_c1t3, by decide, by decide⟩

/-- C3 amended: the disjointness invariant holds for every state reachable
under the usage discipline in which `enqueue_fragment` is only applied to
ids that are neither solved nor punted, and `assume_evaluated` only to ids
that are neither queued nor punted (the counterexample shows the
unrestricted claim fails, because `enqueue_fragment` inserts
unconditionally). Membership in `solved` is permanent under all public
operations, without any restriction. -/
theorem C3_amended_disjointness (deps : Nat → List Nat) (t t2 : Trace)
    (h : ReachesSafe deps Trace.fresh t) :
    (∀ x, x ∈ t.st.to_solve →
        mapLookup x t.st.punted = none ∧ x ∉ t.st.solved) ∧
    (∀ k n, mapLookup k t.st.punted = some n → k ∉ t.st.solved) ∧
    (Reaches deps t t2 → ∀ x, x ∈ t.st.solved → x ∈ t2.st.solved) := by
  have hd := ReachesSafe_disjInv h DisjInv_fresh
  exact ⟨hd.1, hd.2, fun h2 => Reaches_solved_mono h2⟩

def c3w : Trace := enqueue_fragment 2 Trace.fresh

theorem C3_amended_witness :
    mapLookup 2 c3w.st.punted = none ∧ 2 ∉ c3w.st.solved :=
  (C3_amended_disjointness depsNone c3w c3w
    (ReachesSafe.enqueue 2 (ReachesSafe.refl _) (by decide) (by decide))).1
    2 (by decide)

/-- C4: `status` returns `Done` exactly when both `to_solve` and `punted`
are empty, `DoneWithCycles` exactly when `to_solve` is empty and `punted`
is not, and `Pending` exactly when `to_solve` is non-empty. In the model
`status` is a pure function of the state, matching the source, which only
reads the state under the lock. -/
theorem C4_status_characterization (s : State) :
    (status s = Status.Done ↔ s.to_solve = [] ∧ s.punted = []) ∧
    (status s = Status.DoneWithCycles ↔
      s.to_solve = [] ∧ s.punted ≠ []) ∧
    (status s = Status.Pending ↔ s.to_solve ≠ []) := by
  rcases s with ⟨ts, po, pu, so⟩
  cases ts <;> cases pu <;> simp [status]

def c5t : Trace := enqueue_fragment 0 c2t2

/-- C5 counterexample: after enqueue 0; step on the graph `0 -> 1`,
fragment 0 is tracked as punted (count 1) and is not queued; enqueueing 0
again nevertheless inserts it into `to_solve` (the insert in
`enqueue_fragment` is unconditional), refuting the claimed only-if guard.
The resulting trace is reachable through the public operations. -/
theorem C5_counterexample :
    Reaches depsLine Trace.fresh c5t ∧
    mapLookup 0 c2t2.st.punted = some 1 ∧ 0 ∉ c2t2.st.to_solve ∧
    0 ∈ c5t.st.to_solve ∧ mapLookup 0 c5t.st.punted = some 1 := by
  refine ⟨?_, by decide, by decide, by decide, by decide⟩
  have h1 : Reaches depsLine Trace.fresh c2t1 :=
    Reaches.enqueue 0 (Reaches.refl _)
  have h2 : Reaches depsLine Trace.fresh c2t2 :=
    Reaches.step (none : Option Unit) 0 StepResult.didWork h1 (by decide)
      rfl (by decide)
  exact Reaches.enqueue 0 h2

/-- C5 amended: `enqueue_fragment id` unconditionally inserts `id` into
`to_solve` (even when `id` is already solved or punted); it is idempotent
(enqueueing twice equals enqueueing once, and enqueueing an id already in
`to_solve` is a no-op leaving the state unchanged), it changes nothing but
`to_solve`, and it never invokes `Problem::evaluate` or
`Problem::direct_dependencies`. -/
theorem C5_amended_enqueue_unconditional (id : Nat) (t : Trace) :
    (∀ x, x ∈ (enqueue_fragment id t).st.to_solve ↔
        x = id ∨ x ∈ t.st.to_solve) ∧
    enqueue_fragment id (enqueue_fragment id t) = enqueue_fragment id t ∧
    (id ∈ t.st.to_solve → enqueue_fragment id t = t) ∧
    (enqueue_fragment id t).st.pending_on = t.st.pending_on ∧
    (enqueue_fragment id t).st.punted = t.st.punted ∧
    (enqueue_fragment id t).st.solved = t.st.solved ∧
    (enqueue_fragment id t).ddCalls = t.ddCalls ∧
    (enqueue_fragment id t).evalCalls = t.evalCalls := by
  refine ⟨fun x => mem_setInsert, ?_, ?_, rfl, rfl, rfl, rfl, rfl⟩
  · have h2 : setInsert id (setInsert id t.st.to_solve) =
        setInsert id t.st.to_solve :=
      setInsert_of_mem (mem_setInsert.2 (Or.inl rfl))
    simp [enqueue_fragment, h2]
  · intro h
    have h2 : setInsert id t.st.to_solve = t.st.to_solve :=
      setInsert_of_mem h
    simp [enqueue_fragment, h2]

theorem C5_amended_witness : enqueue_fragment 0 c2t1 = c2t1 :=
  (C5_amended_enqueue_unconditional 0 c2t1).2.2.1 (by decide)

/-- C6: when the filtered dependency list of the popped fragment is
non-empty, the step punts: it records the id in `punted` with the length of
the filtered list as its count (other punted entries untouched), appends the
id to `pending_on[d]` once per occurrence of `d` in the list (other entries
untouched), and inserts into `to_solve` exactly those listed dependencies
that are not the id itself, not solved, and not already punted keys; a
self-dependency is registered in `pending_on` but never re-enqueues the id
in this step. The step reports `Ok(true)` and makes no `evaluate` call. -/
theorem C6_punt_step {e : Type} (deps : Nat → List Nat) (evalRes : Option e)
    (id : Nat) (t t' : Trace) (r : StepResult e)
    (hds : remainingDeps deps id t.st ≠ [])
    (h : stepOn deps evalRes id t = (t', r)) :
    r = StepResult.didWork ∧
    mapLookup id t'.st.punted =
      some (remainingDeps deps id t.st).length ∧
    (∀ k, k ≠ id → mapLookup k t'.st.punted = mapLookup k t.st.punted) ∧
    (∀ d, d ∈ remainingDeps deps id t.st →
        mapLookup d t'.st.pending_on =
          some ((mapLookup d t.st.pending_on).getD [] ++
            List.replicate ((remainingDeps deps id t.st).count d) id)) ∧
    (∀ d, d ∉ remainingDeps deps id t.st →
        mapLookup d t'.st.pending_on = mapLookup d t.st.pending_on) ∧
    (∀ x, x ∈ t'.st.to_solve ↔
        (x ∈ t.st.to_solve ∧ x ≠ id) ∨
          (x ∈ remainingDeps deps id t.st ∧ x ≠ id ∧ x ∉ t.st.solved ∧
            mapLookup x t.st.punted = none)) ∧
    t'.st.solved = t.st.solved ∧
    t'.evalCalls = t.evalCalls := by
  rw [stepOn_punt deps evalRes id t hds] at h
  injection h with h1 h2
  subst h1
  refine ⟨h2.symm, ?_, ?_, ?_, ?_, ?_, ?_, rfl⟩
  · rw [markPunted_punted, if_pos rfl]
  · intro k hk
    rw [markPunted_punted, if_neg hk]
  · intro d hd
    exact markPunted_pending_mem _ _ _ _ hd
  · intro d hd
    exact markPunted_pending_not_mem _ _ _ _ hd
  · intro x
    rw [markPunted_to_solve]
    constructor
    · rintro (hx | hx)
      · exact Or.inl (mem_setErase.1 hx)
      · exact Or.inr hx
    · rintro (hx | hx)
      · exact Or.inl (mem_setErase.2 hx)
      · exact Or.inr hx
  · rw [markPunted_solved]

theorem C6_punt_step_witness :
    mapLookup 0 c2t2.st.punted =
      some (remainingDeps depsLine 0 c2t1.st).length :=
  (C6_punt_step depsLine (none : Option Unit) 0 c2t1 c2t2
    StepResult.didWork (by decide) rfl).2.1

/-- C7: marking a fragment solved (the shared path of a successful
evaluation and of `assume_evaluated`, both of which invoke `mark_solved`)
inserts the id into `solved`, removes the `pending_on[id]` entry (other
entries untouched), and decrements `punted[k]` once for each occurrence of
`k` in the removed dependent list: a dependent whose count reaches zero
leaves `punted` and enters `to_solve`, a dependent whose count stays
positive keeps its (decremented) `punted` entry; nothing else changes in
`to_solve`. The hypothesis `markSolved id s = some s1` states that the
count lookups succeed, which claim C9 addresses separately. -/
theorem C7_mark_solved_unblocking (id : Nat) (s s1 : State)
    (h : markSolved id s = some s1) :
    (∀ x, x ∈ s1.solved ↔ x = id ∨ x ∈ s.solved) ∧
    mapLookup id s1.pending_on = none ∧
    (∀ d, d ≠ id → mapLookup d s1.pending_on = mapLookup d s.pending_on) ∧
    (∀ k, k ∉ (mapLookup id s.pending_on).getD [] →
        mapLookup k s1.punted = mapLookup k s.punted) ∧
    (∀ k, k ∈ (mapLookup id s.pending_on).getD [] →
        ∃ n, mapLookup k s.punted = some n ∧ 1 ≤ n ∧
          ((mapLookup id s.pending_on).getD []).count k ≤ n ∧
          mapLookup k s1.punted =
            (if ((mapLookup id s.pending_on).getD []).count k < n then
              some (n - ((mapLookup id s.pending_on).getD []).count k)
            else none)) ∧
    (∀ x, x ∈ s1.to_solve ↔
        x ∈ s.to_solve ∨
          (x ∈ (mapLookup id s.pending_on).getD [] ∧
            mapLookup x s.punted =
              some (((mapLookup id s.pending_on).getD []).count x))) ∧
    (∀ tx : Trace, assume_evaluated id tx =
        (markSolved id tx.st).map (fun s2 => { tx with st := s2 })) := by
  obtain ⟨h1, h2, h3, h4, h5, h6⟩ := markSolved_char id s s1 h
  exact ⟨h1, h2, h3, h4, h5, h6, fun tx => rfl⟩

def c7s : State := ⟨[], [(1, [0])], [(0, 1)], []⟩

def c7s2 : State := ⟨[0], [], [], [1]⟩

theorem C7_witness :
    mapLookup 1 c7s2.pending_on = none :=
  (C7_mark_solved_unblocking 1 c7s c7s2 (by decide)).2.1

def c8p : Trace × StepResult Nat := stepOn depsNone (some 7) 0 c1t3

/-- C8 counterexample: the claim asserts that after a failing step the
popped id is in none of `to_solve`, `punted`, `solved`. From the reachable
trace enqueue 0; step (solves 0); enqueue 0, a step that pops 0 and whose
evaluation fails with error 7 returns `Err(7)` — but 0 is still in `solved`
afterwards, because it already was before the step. -/
theorem C8_counterexample :
    Reaches depsNone Trace.fresh c1t3 ∧ 0 ∈ c1t3.st.to_solve ∧
    c8p.2 = StepResult.evalError 7 ∧ 0 ∈ c8p.1.st.solved :=
  ⟨reaches_c1t3, by decide, by decide, by decide⟩

/-- C8 amended: when the filtered dependency list is empty and `evaluate`
fails, the step returns the error value unchanged and the only mutation of
the whole step is the removal of the id from `to_solve`: `solved`, `punted`
and `pending_on` are exactly as before the `evaluate` call, the id is not
in `to_solve` afterwards, and it is in `punted` or `solved` afterwards only
if it already was before the step (in particular, from any state satisfying
the disjointness invariant, a failing step leaves the id in none of the
three). The id is appended to both instrumentation logs, recording the one
`direct_dependencies` call and the one failing `evaluate` call. -/
theorem C8_amended_error_step {e : Type} (deps : Nat → List Nat) (err : e)
    (id : Nat) (t t' : Trace) (r : StepResult e)
    (hds : remainingDeps deps id t.st = [])
    (h : stepOn deps (some err) id t = (t', r)) :
    r = StepResult.evalError err ∧
    t'.st.solved = t.st.solved ∧
    t'.st.punted = t.st.punted ∧
    t'.st.pending_on = t.st.pending_on ∧
    t'.st.to_solve = setErase id t.st.to_solve ∧
    id ∉ t'.st.to_solve ∧
    (mapLookup id t.st.punted = none → mapLookup id t'.st.punted = none) ∧
    (id ∉ t.st.solved → id ∉ t'.st.solved) ∧
    t'.ddCalls = t.ddCalls ++ [id] ∧
    t'.evalCalls = t.evalCalls ++ [id] := by
  rw [stepOn_eval_err deps err id t hds] at h
  injection h with h1 h2
  subst h1
  refine ⟨h2.symm, rfl, rfl, rfl, rfl, ?_, fun hp => hp, fun hs => hs,
    rfl, rfl⟩
  exact fun hc => (mem_setErase.1 hc).2 rfl

theorem C8_amended_witness :
    (stepOn depsNone (some (5 : Nat)) 0 c1t1).2 =
      StepResult.evalError 5 :=
  (C8_amended_error_step depsNone 5 0 c1t1
    (stepOn depsNone (some (5 : Nat)) 0 c1t1).1
    (stepOn depsNone (some (5 : Nat)) 0 c1t1).2 (by decide) rfl).1

def c9t1 : Trace := enqueue_fragment 0 Trace.fresh

def c9t2 : Trace := (stepOn depsDiamond (none : Option Unit) 0 c9t1).1

def c9t3 : Trace := enqueue_fragment 0 c9t2

def c9t4 : Trace := (stepOn depsDiamond (none : Option Unit) 0 c9t3).1

def c9t5 : Trace := (stepOn depsDiamond (none : Option Unit) 1 c9t4).1

/-- C9: the claim (and the `.unwrap()` calls in `mark_solved`, which assert
it) say every dependent recorded in `pending_on` is a key of `punted`, so
the count lookups never panic. The code breaks its own assertion: on the
graph `0 -> 1, 0 -> 2`, the legal sequence enqueue 0; step (punts 0);
enqueue 0; step (punts 0 again, duplicating the `pending_on`
registrations); step (solves 1, whose two registered dependents `[0, 0]`
drain the single `punted[0]` count and re-enqueue 0) reaches a state whose
`pending_on[2] = [0, 0]` while 0 is not a punted key — and the next step,
which pops 2 and solves it, panics on `punted.get(&0).unwrap()`. -/
theorem C9_panic_on_double_enqueue :
    Reaches depsDiamond Trace.fresh c9t5 ∧
    mapLookup 2 c9t5.st.pending_on = some [0, 0] ∧
    mapLookup 0 c9t5.st.punted = none ∧
    2 ∈ c9t5.st.to_solve ∧
    (stepOn depsDiamond (none : Option Unit) 2 c9t5).2 =
      StepResult.panicked := by
  refine ⟨?_, by decide, by decide, by decide, by decide⟩
  have h1 : Reaches depsDiamond Trace.fresh c9t1 :=
    Reaches.enqueue 0 (Reaches.refl _)
  have h2 : Reaches depsDiamond Trace.fresh c9t2 :=
    Reaches.step (none : Option Unit) 0 StepResult.didWork h1 (by decide)
      rfl (by decide)
  have h3 : Reaches depsDiamond Trace.fresh c9t3 :=
    Reaches.enqueue 0 h2
  have h4 : Reaches depsDiamond Trace.fresh c9t4 :=
    Reaches.step (none : Option Unit) 0 StepResult.didWork h3 (by decide)
      rfl (by decide)
  exact Reaches.step (none : Option Unit) 1 StepResult.didWork h4
    (by decide) rfl (by decide)

/-- C10: `assume_evaluated` is by definition exactly the `mark_solved`
commit (the same dependent-unblocking as a successful evaluation) applied
to the current state, it never calls `Problem::evaluate` or
`Problem::direct_dependencies` (the instrumentation logs are unchanged),
and it is idempotent on an already-solved id: in every trace reachable from
a fresh solver through the public operations, if the id is in `solved` then
`assume_evaluated id` returns with the entire solver state unchanged. -/
theorem C10_assume_evaluated :
    (∀ (deps : Nat → List Nat) (t : Trace) (id : Nat),
        Reaches deps Trace.fresh t → id ∈ t.st.solved →
        assume_evaluated id t = some t) ∧
    (∀ (id : Nat) (t : Trace),
        assume_evaluated id t =
          (markSolved id t.st).map (fun s => { t with st := s })) ∧
    (∀ (id : Nat) (t t' : Trace), assume_evaluated id t = some t' →
        t'.ddCalls = t.ddCalls ∧ t'.evalCalls = t.evalCalls) := by
  refine ⟨?_, fun id t => rfl, ?_⟩
  · intro deps t id hr hs
    have hpu : PendingUnsolved t.st :=
      Reaches_pendingUnsolved hr (fun d hd => absurd rfl hd)
    have hpo : mapLookup id t.st.pending_on = none := by
      by_contra hne
      exact hpu id hne hs
    have hm := markSolved_none_pending id t.st hpo
    have hins : setInsert id t.st.solved = t.st.solved :=
      setInsert_of_mem hs
    unfold assume_evaluated
    rw [hm, hins]
    rfl
  · intro id t t' h
    obtain ⟨s, hm, rfl⟩ := assume_evaluated_some h
    exact ⟨rfl, rfl⟩

def c10w : Trace := ⟨⟨[], [], [], [4]⟩, [], []⟩

theorem C10_witness : assume_evaluated 4 c10w = some c10w :=
  C10_assume_evaluated.1 depsNone c10w 4
    (Reaches.assume 4 (Reaches.refl _) (by decide)) (by decide)

end GppSolver
